import Mathlib

set_option maxRecDepth 8000
set_option linter.unusedVariables false
set_option linter.unnecessarySeqFocus false

/-!
# Verification of the obsidian-local-whisper audio-transcription pipeline

Shallow embedding of the pipeline of this repository:

* `src/link_finder.ts` — `findAudioLinkMatches` (regex scanner) and
  `resolveMatchesToFiles` (link resolution over the host's metadata cache);
* `src/main.ts` — the monolithic variant `findAudioLinks` with a slightly
  different wiki-link character class;
* `src/transcription.ts` — `getTranscriptPathInTmp` and `readTranscriptFile`;
* `src/insert_transcript.ts` — `insertTranscriptBelowRange`;
* the selection step of `transcribeAudioInCurrentNote` together with
  `ChooseLinkModal`.

Documents are embedded as `List Char` (JavaScript strings indexed by code
unit; all inputs of interest here are ASCII so this is exact).  The regex
engine semantics (leftmost scan, alternation order, greedy quantifiers with
single-step backtracking, case-insensitive literal comparison under the `i`
flag) are embedded by bespoke executable functions specialised to the two
patterns occurring in the source.
-/

namespace LocalWhisper

/-- ASCII lowering; embeds the effect of the JavaScript regex `i` flag on the
alternation literals (all inputs compared case-insensitively here are ASCII). -/
def lowerChar (c : Char) : Char :=
  if 'A' ≤ c ∧ c ≤ 'Z' then Char.ofNat (c.toNat + 32) else c

/-- Case-insensitive literal match: if the pattern `p` matches a prefix of `l`
(after ASCII lowering), return the rest of `l`. -/
def ciMatchLit : List Char → List Char → Option (List Char)
  | [], l => some l
  | _ :: _, [] => none
  | p :: ps, c :: cs => if lowerChar p = lowerChar c then ciMatchLit ps cs else none

/-- Case-sensitive literal prefix test (used for the bracket literals of the
patterns, which are unaffected by the `i` flag). -/
def litStarts : List Char → List Char → Bool
  | [], _ => true
  | _ :: _, [] => false
  | p :: ps, c :: cs => p = c && litStarts ps cs

/-- Longest prefix not containing the character `bad`; the text consumed by a
greedy negated character class `[^bad]*` before any backtracking. -/
def runUntil (bad : Char) : List Char → List Char
  | [] => []
  | c :: t => if c = bad then [] else c :: runUntil bad t

/-- The `audioExtensions` array of `src/link_finder.ts` (same array, same
order, in `src/main.ts`). -/
def audioExtensions : List String := ["mp3", "wav", "m4a", "flac", "ogg", "aac"]

/-- The extension alternatives as character lists, in alternation order. -/
def audioExtsL : List (List Char) := audioExtensions.map String.data

/-- Try the extension alternatives `(?:mp3|wav|…)` in order at the head of `l`;
on a candidate match the following literal `close` (the `\)` resp. `\]\]` that
ends the regex alternative) must also match, otherwise the engine backtracks to
the next alternative.  Returns the length of the successful alternative. -/
def tryAlts : List (List Char) → List Char → List Char → Option Nat
  | [], _, _ => none
  | e :: es, close, l =>
    match ciMatchLit e l with
    | some r => if litStarts close r then some e.length else tryAlts es close l
    | none => tryAlts es close l

/-- Backtracking of the greedy `[^bad]+` followed by the extension alternation
and the closing literal: the quantifier first consumes `p` characters (started
at the full run length) and gives back one character at a time.  Returns the
capture length `p + |alt|` of the first success. -/
def plusAltsDescend (alts : List (List Char)) (close : List Char) (l : List Char) :
    Nat → Option Nat
  | 0 => none
  | p + 1 =>
    match tryAlts alts close (l.drop (p + 1)) with
    | some elen => some (p + 1 + elen)
    | none => plusAltsDescend alts close l p

/-- Matching of `([^bad]+(?:mp3|wav|m4a|flac|ogg|aac))close` against a prefix
of `l` with the engine's backtracking order; returns the capture length. -/
def contentMatch (bad : Char) (close : List Char) (l : List Char) : Option Nat :=
  plusAltsDescend audioExtsL close l (runUntil bad l).length

/-- Backtracking of `[^\]]*\]\(`: the greedy star first consumes `q` characters
(started at the full run length) and gives back one at a time until the literal
`](` matches.  Returns the label length `q` of the first success. -/
def starBrackDescend (l1 : List Char) : Nat → Option Nat
  | 0 => if litStarts ([']', '(']) l1 then some 0 else none
  | q + 1 =>
    if litStarts ([']', '(']) (l1.drop (q + 1)) then some (q + 1)
    else starBrackDescend l1 q

/-- First regex alternative `\[([^\]]*)\]\(([^)]+(?:mp3|wav|m4a|flac|ogg|aac))\)`
tried at the current position (identical in `src/link_finder.ts` and
`src/main.ts`).  Returns the group-2 capture and the total match length.
(The `\]` can only ever match the first `]` after the opening `[`, so if the
content part fails there is no further star backtracking to consider.) -/
def tryBranch1 : List Char → Option (List Char × Nat)
  | [] => none
  | c :: l1 =>
    if c = '[' then
      match starBrackDescend l1 (runUntil ']' l1).length with
      | some q =>
        match contentMatch ')' ([')']) (l1.drop (q + 2)) with
        | some capLen => some ((l1.drop (q + 2)).take capLen, 1 + q + 2 + capLen + 1)
        | none => none
      | none => none
    else none

/-- Second regex alternative `\[\[([^bad]+(?:mp3|wav|m4a|flac|ogg|aac))\]\]`
tried at the current position; `bad` is `]` in `src/link_finder.ts` and `[` in
`src/main.ts` (the one character the two regexes differ in).  Returns the
group-3 capture and the total match length. -/
def tryBranch2With (bad : Char) : List Char → Option (List Char × Nat)
  | c1 :: c2 :: l2 =>
    if c1 = '[' ∧ c2 = '[' then
      match contentMatch bad ([']', ']']) l2 with
      | some capLen => some (l2.take capLen, 2 + capLen + 2)
      | none => none
    else none
  | _ => none

/-- One attempt of the full regex at the current position: alternative 1,
then — the engine tries alternatives left to right — alternative 2. -/
def tryMatchWith (bad : Char) (l : List Char) : Option (List Char × Nat) :=
  match tryBranch1 l with
  | some r => some r
  | none => tryBranch2With bad l

/-- One attempt of the `src/link_finder.ts` regex (`[^\]]+` wiki links). -/
def tryMatchL (l : List Char) : Option (List Char × Nat) :=
  tryMatchWith ']' l

/-- One attempt of the `src/main.ts` regex (`[^\[]+` wiki links). -/
def tryMatchM (l : List Char) : Option (List Char × Nat) :=
  tryMatchWith '[' l

/-- `LinkMatch` of `src/link_finder.ts`: the captured link text and the match's
start offset and one-past-the-end offset in the note content. -/
structure LinkMatch where
  linkText : List Char
  startPos : Nat
  endPos : Nat
deriving DecidableEq

/-- The `while ((match = linkRegex.exec(noteContent)) !== null)` loop: a global
regex scan.  At each position the matcher is attempted; on success the match is
recorded (the source skips a falsy — empty — capture, faithfully modelled even
though the patterns never produce one) and scanning resumes at `lastIndex`; on
failure the scan advances one character.  The fuel argument is initialised to
`length + 1`, which is never exhausted since every match consumes at least one
character. -/
def scanAudio (matcher : List Char → Option (List Char × Nat)) :
    Nat → List Char → Nat → List LinkMatch
  | 0, _, _ => []
  | fuel + 1, l, i =>
    match matcher l with
    | some (cap, len) =>
      if cap = [] then scanAudio matcher fuel (l.drop len) (i + len)
      else ⟨cap, i, i + len⟩ :: scanAudio matcher fuel (l.drop len) (i + len)
    | none =>
      match l with
      | [] => []
      | _ :: t => scanAudio matcher fuel t (i + 1)

/-- `findAudioLinkMatches` of `src/link_finder.ts`, on a character list. -/
def findAudioLinkMatchesL (noteContent : List Char) : List LinkMatch :=
  scanAudio tryMatchL (noteContent.length + 1) noteContent 0

/-- `findAudioLinkMatches` of `src/link_finder.ts`. -/
def findAudioLinkMatches (noteContent : String) : List LinkMatch :=
  findAudioLinkMatchesL noteContent.data

/-- `AudioLink` of `src/main.ts`: the captured path text and offsets. -/
structure AudioLink where
  filePath : List Char
  startPos : Nat
  endPos : Nat
deriving DecidableEq

/-- `findAudioLinks` of `src/main.ts`, on a character list. -/
def findAudioLinksL (noteContent : List Char) : List AudioLink :=
  (scanAudio tryMatchM (noteContent.length + 1) noteContent 0).map
    (fun m => ⟨m.linkText, m.startPos, m.endPos⟩)

/-- `findAudioLinks` of `src/main.ts`. -/
def findAudioLinks (noteContent : String) : List AudioLink :=
  findAudioLinksL noteContent.data

example : findAudioLinkMatches ("[Label](MyRecording.m4a)") =
    [⟨("MyRecording.m4a").data, 0, 24⟩] := by decide

example : findAudioLinkMatches ("[[x.mp3]]") = [⟨("x.mp3").data, 0, 9⟩] := by decide

example : findAudioLinkMatches ("see [[a.mp3]] and [b](c.wav)!") =
    [⟨("a.mp3").data, 4, 13⟩, ⟨("c.wav").data, 18, 28⟩] := by decide

example : findAudioLinkMatches ("[[A.MP3]]") = [⟨("A.MP3").data, 0, 9⟩] := by decide

example : findAudioLinkMatches ("[[mp3]]") = [] := by decide

example : findAudioLinkMatches ("[[a.mp4]]") = [] := by decide

example : findAudioLinkMatches ("[x](y.xmp3)") = [⟨("y.xmp3").data, 0, 11⟩] := by decide

example : findAudioLinkMatches ("[[a]b.mp3]]") = [] := by decide

example : findAudioLinks ("[[a]b.mp3]]") = [⟨("a]b.mp3").data, 0, 11⟩] := by decide

example : findAudioLinks ("[[p.mp3]]xmp3]]") = [⟨("p.mp3]]xmp3").data, 0, 15⟩] := by decide

example : findAudioLinkMatches ("[[p.mp3]]xmp3]]") = [⟨("p.mp3").data, 0, 9⟩] := by decide

/-! ## Reference resolution (`resolveMatchesToFiles` of `src/link_finder.ts`) -/

/-- The host's `TFile`: all the pipeline uses of it is the `path` field. -/
structure TFile where
  path : String
deriving DecidableEq

/-- `AudioLinkFile` of `src/link_finder.ts`: a resolved file plus the note
positions of the originating match. -/
structure AudioLinkFile where
  tfile : TFile
  startPos : Nat
  endPos : Nat
deriving DecidableEq

/-- `resolveMatchesToFiles` of `src/link_finder.ts`.  The host's
`app.metadataCache.getFirstLinkpathDest` is an external collaborator and is
passed in as a function from link text and current file path to an optional
`TFile` (`null` becomes `none`). -/
def resolveMatchesToFiles (getFirstLinkpathDest : List Char → String → Option TFile)
    (linkMatches : List LinkMatch) (currentFilePath : String) : List AudioLinkFile :=
  match linkMatches with
  | [] => []
  | m :: rest =>
    match getFirstLinkpathDest m.linkText currentFilePath with
    | some tfile =>
      ⟨tfile, m.startPos, m.endPos⟩ ::
        resolveMatchesToFiles getFirstLinkpathDest rest currentFilePath
    | none => resolveMatchesToFiles getFirstLinkpathDest rest currentFilePath

/-! ## Selection step (`transcribeAudioInCurrentNote` steps 2–3 of the modular
`main.ts`, together with `ChooseLinkModal` of `choose_link_modal.ts`) -/

/-- Outcome of the selection step of the pipeline. -/
inductive SelectionOutcome where
  | noFiles
  | selected (f : AudioLinkFile)
  | canceled
deriving DecidableEq

/-- The labels of the buttons created by `ChooseLinkModal.onOpen`: one button
per item, labelled `item.tfile.path`. -/
def modalButtonLabels (items : List AudioLinkFile) : List String :=
  items.map (fun it => it.tfile.path)

/-- The label of the extra cancel button of `ChooseLinkModal.onOpen`. -/
def modalCancelLabel : String := "Cancel"

/-- The value `chooseAudioLinkModal` resolves with, as a function of the user's
response: clicking the `i`-th item button resolves that item, clicking the
cancel button (`none`) resolves `null`. -/
def chooseAudioLinkModalResult (items : List AudioLinkFile) (click : Option Nat) :
    Option AudioLinkFile :=
  match click with
  | some i => items[i]?
  | none => none

/-- The selection step of `transcribeAudioInCurrentNote`: abort with a notice
on zero resolved files, auto-select a single file, otherwise open the modal.
Returns the outcome, the notices reported, and — when the modal was opened —
its prompt (item button labels and cancel button label). -/
def selectionStep (audioFiles : List AudioLinkFile) (click : Option Nat) :
    SelectionOutcome × List String × Option (List String × String) :=
  match audioFiles with
  | [] => (.noFiles, [("No valid audio links found in this note.")], none)
  | [f] => (.selected f, [], none)
  | f1 :: f2 :: rest =>
    match chooseAudioLinkModalResult (f1 :: f2 :: rest) click with
    | some f =>
      (.selected f, [], some (modalButtonLabels (f1 :: f2 :: rest), modalCancelLabel))
    | none =>
      (.canceled, [], some (modalButtonLabels (f1 :: f2 :: rest), modalCancelLabel))

/-! ## Transcript locator and reader (`src/transcription.ts`) -/

/-- Node's POSIX `path.basename` (no extension argument): trailing slashes are
ignored and the portion after the last remaining slash is returned. -/
def basename (p : String) : String :=
  ⟨((p.data.reverse.dropWhile (fun c => c = '/')).takeWhile (fun c => ¬c = '/')).reverse⟩

/-- Case-insensitive whole-string match of one extension alternative: the
regex fragment `(mp3|…)$` starting right after the dot. -/
def ciExact : List Char → List Char → Bool
  | [], [] => true
  | [], _ :: _ => false
  | _ :: _, [] => false
  | p :: ps, c :: cs => lowerChar p = lowerChar c && ciExact ps cs

/-- Whether `/\.(mp3|wav|m4a|flac|ogg|aac)$/i` matches at this position of the
subject, i.e. a dot followed by a recognized extension that ends the string. -/
def extMatchHere (l : List Char) : Bool :=
  match l with
  | [] => false
  | c :: rest => if c = '.' then audioExtsL.any (fun e => ciExact e rest) else false

/-- `baseName.replace(/\.(mp3|wav|m4a|flac|ogg|aac)$/i, "")`: replace the
leftmost (here: only possible) match of the anchored pattern by the empty
string; the match necessarily extends to the end of the subject. -/
def replaceExtAnchored : List Char → List Char
  | [] => []
  | c :: t => if extMatchHere (c :: t) then [] else c :: replaceExtAnchored t

/-- `getTranscriptPathInTmp` of `src/transcription.ts`. -/
def getTranscriptPathInTmp (audioPath : String) : String :=
  let baseName := basename audioPath
  let coreName : String := ⟨replaceExtAnchored baseName.data⟩
  ("/tmp/") ++ coreName ++ (".txt")

example : getTranscriptPathInTmp ("/vault/Audio/Meeting.m4a") = "/tmp/Meeting.txt" := by decide
example : getTranscriptPathInTmp ("/a/b/x.FLAC") = "/tmp/x.txt" := by decide
example : getTranscriptPathInTmp ("/a/b/x.xmp3") = "/tmp/x.xmp3.txt" := by decide

/-- JavaScript `data.trim()`: remove leading and trailing whitespace. -/
def jsTrim (s : String) : String :=
  ⟨((s.data.dropWhile Char.isWhitespace).reverse.dropWhile Char.isWhitespace).reverse⟩

/-- `readTranscriptFile` of `src/transcription.ts`.  The file system is an
external collaborator, passed as a partial map from paths to file contents;
`fs.readFileSync` throws on an absent or unreadable file, embedded as
`Except.error`. -/
def readTranscriptFile (fileContents : String → Option String) (transcriptPath : String) :
    Except String String :=
  match fileContents transcriptPath with
  | none => .error ("ENOENT: no such file or directory")
  | some data => .ok (jsTrim data)

/-! ## Offset-to-position translation and insertion (`src/insert_transcript.ts`) -/

/-- JavaScript `text.split("\n")` for the one-character separator `"\n"`:
the newline-delimited segments, one more segment than there are newlines. -/
def splitNl : List Char → List (List Char)
  | [] => [[]]
  | c :: t =>
    if c = '\n' then [] :: splitNl t
    else
      match splitNl t with
      | [] => [[c]]
      | h :: r => (c :: h) :: r

/-- The `lineIndex` computed by `insertTranscriptBelowRange`:
`content.substring(0, endPos).split("\n").length - 1`. -/
def lineIndexOf (content : List Char) (endPos : Nat) : Nat :=
  (splitNl (content.take endPos)).length - 1

/-- Character offset of `{ line := k, ch := 0 }` in the document, i.e. of the
start of line `k`; the host editor clips a position beyond the last line to the
end of the document. -/
def lineStartOff : List Char → Nat → Nat
  | _, 0 => 0
  | [], _ + 1 => 0
  | c :: t, k + 1 =>
    if c = '\n' then 1 + lineStartOff t k else 1 + lineStartOff t (k + 1)

/-- The `insertionText` of `insertTranscriptBelowRange`:
`` `\n>[!note] Transcription\n${transcript}\n` ``. -/
def transcriptionCallout (transcript : List Char) : List Char :=
  '\n' :: ((">[!note] Transcription").data ++ '\n' :: (transcript ++ ['\n']))

/-- `insertTranscriptBelowRange` of `src/insert_transcript.ts`: compute the
line of `endPos`, and insert the callout text at the start of the following
line via `editor.replaceRange(insertionText, { line, ch: 0 })` — a pure
insertion at the character offset of that position. -/
def insertTranscriptBelowRange (content : List Char) (startPos endPos : Nat)
    (transcript : List Char) : List Char :=
  let lineIndex := lineIndexOf content endPos
  let o := lineStartOff content (lineIndex + 1)
  content.take o ++ transcriptionCallout transcript ++ content.drop o

example :
    insertTranscriptBelowRange ("See [[meeting.m4a]] for notes.").data 4 19 ("Hello world").data
      = ("See [[meeting.m4a]] for notes.\n>[!note] Transcription\nHello world\n").data := by
  decide

example :
    insertTranscriptBelowRange ("a [[x.mp3]] b\nnext").data 2 11 ("T").data
      = ("a [[x.mp3]] b\n\n>[!note] Transcription\nT\nnext").data := by
  decide

/-- The read-then-insert tail of `transcribeAudioInCurrentNote` (steps 6–7 of
the modular `main.ts`): on a read error the note is left untouched and the
generic notice is shown; on success the transcript is inserted below the match
and the success notice is shown.  Returns the resulting note content and the
notices reported. -/
def transcriptReadAndInsert (fileContents : String → Option String) (transcriptPath : String)
    (content : List Char) (startPos endPos : Nat) : List Char × List String :=
  match readTranscriptFile fileContents transcriptPath with
  | .error _ => (content, [("Could not read the transcript file.")])
  | .ok transcript =>
    (insertTranscriptBelowRange content startPos endPos transcript.data,
      [("Transcription inserted!")])

/-! ## Generic helper lemmas -/

/-- Case-sensitive literal suffix test. -/
def litEnds (s l : List Char) : Bool :=
  litStarts s.reverse l.reverse

/-- Walk the recognized extensions in order and strip the first one that is a
trailing `.ext` of the (lowered) name. -/
def stripSpecAux : List (List Char) → List Char → List Char
  | [], l => l
  | e :: es, l =>
    if litEnds ('.' :: e) (l.map lowerChar) then l.take (l.length - (e.length + 1))
    else stripSpecAux es l

/-- The transcript-name derivation in the words of the specification: strip a
trailing recognized audio extension (case-insensitive), if present, from the
base name. -/
def stripRecognizedExtSpec (l : List Char) : List Char :=
  stripSpecAux audioExtsL l

theorem splitNl_ne_nil (l : List Char) : splitNl l ≠ [] := by
  cases l with
  | nil => simp [splitNl]
  | cons c t =>
    simp only [splitNl]
    split
    · simp
    · split <;> simp

theorem splitNl_length (l : List Char) : (splitNl l).length = l.count '\n' + 1 := by
  induction l with
  | nil => simp [splitNl]
  | cons c t ih =>
    by_cases hc : c = '\n'
    · subst hc
      simp [splitNl, ih, List.count_cons]
    · simp only [splitNl, if_neg hc]
      cases hsp : splitNl t with
      | nil => exact absurd hsp (splitNl_ne_nil t)
      | cons h r =>
        rw [hsp] at ih
        simpa [List.count_cons, hc] using ih

/-! ## Facts about ASCII lowering and literal matching -/

theorem char_toNat_ofNat_valid (n : Nat) (h : n.isValidChar) : (Char.ofNat n).toNat = n := by
  simp [Char.ofNat, dif_pos h, Char.ofNatAux, Char.toNat, UInt32.toNat]

theorem charle_toNat {a b : Char} (h : a ≤ b) : a.toNat ≤ b.toNat := h

theorem lowerChar_eq_dot {c : Char} (h : lowerChar c = '.') : c = '.' := by
  unfold lowerChar at h
  split at h
  case isTrue hc =>
    exfalso
    have h1 : 65 ≤ c.toNat := charle_toNat hc.1
    have h2 : c.toNat ≤ 90 := charle_toNat hc.2
    have hv : (c.toNat + 32).isValidChar := Or.inl (by omega)
    have h3 := char_toNat_ofNat_valid _ hv
    rw [h] at h3
    have hd : ('.').toNat = 46 := by decide
    omega
  case isFalse _ => exact h

theorem litStarts_iff {p l : List Char} : litStarts p l = true ↔ ∃ t, l = p ++ t := by
  induction p generalizing l with
  | nil => simp [litStarts]
  | cons a ps ih =>
    cases l with
    | nil => simp [litStarts]
    | cons c cs =>
      simp only [litStarts, Bool.and_eq_true, decide_eq_true_eq, ih, List.cons_append]
      constructor
      · rintro ⟨rfl, t, rfl⟩
        exact ⟨t, rfl⟩
      · rintro ⟨t, ht⟩
        injection ht with h1 h2
        exact ⟨h1.symm, t, h2⟩

theorem litEnds_iff {s l : List Char} : litEnds s l = true ↔ ∃ t, l = t ++ s := by
  unfold litEnds
  rw [litStarts_iff]
  constructor
  · rintro ⟨t, ht⟩
    refine ⟨t.reverse, ?_⟩
    have h2 := congrArg List.reverse ht
    simpa using h2
  · rintro ⟨t, rfl⟩
    exact ⟨t.reverse, by simp⟩

theorem ciExact_iff {p c : List Char} :
    ciExact p c = true ↔ p.map lowerChar = c.map lowerChar := by
  induction p generalizing c with
  | nil => cases c <;> simp [ciExact]
  | cons a ps ih =>
    cases c with
    | nil => simp [ciExact]
    | cons b cs =>
      simp [ciExact, ih]

theorem audioExts_lower : ∀ e ∈ audioExtsL, e.map lowerChar = e := by decide

theorem audioExts_len : ∀ e ∈ audioExtsL, e.length = 3 ∨ e.length = 4 := by decide

theorem audioExts_len4 :
    ∀ e ∈ audioExtsL, e.length = 4 → e = ('f' :: 'l' :: 'a' :: 'c' :: []) := by decide

theorem extMatchHere_iff {l : List Char} :
    extMatchHere l = true ↔ ∃ e ∈ audioExtsL, l.map lowerChar = '.' :: e := by
  cases l with
  | nil => simp [extMatchHere]
  | cons c rest =>
    simp only [extMatchHere]
    by_cases hc : c = '.'
    · subst hc
      rw [if_pos rfl, List.any_eq_true]
      simp only [List.map_cons]
      constructor
      · rintro ⟨e, he, heq⟩
        have heq2 : ciExact e rest = true := heq
        rw [ciExact_iff] at heq2
        refine ⟨e, he, ?_⟩
        rw [show lowerChar '.' = '.' from by decide]
        rw [← heq2, audioExts_lower e he]
      · rintro ⟨e, he, heq⟩
        refine ⟨e, he, ?_⟩
        show ciExact e rest = true
        rw [ciExact_iff]
        injection heq with h1 h2
        rw [audioExts_lower e he, h2]
    · rw [if_neg hc]
      simp only [Bool.false_eq_true, false_iff]
      rintro ⟨e, he, heq⟩
      simp only [List.map_cons] at heq
      injection heq with h1 h2
      exact hc (lowerChar_eq_dot h1)

/-! ## The anchored-extension replace equals the suffix strip -/

theorem replace_of_no_fire (l : List Char) (h : ∀ j, extMatchHere (l.drop j) = false) :
    replaceExtAnchored l = l := by
  induction l with
  | nil => rfl
  | cons c t ih =>
    have h0 : extMatchHere (c :: t) = false := by simpa using h 0
    rw [replaceExtAnchored, if_neg (by simp [h0])]
    rw [ih (fun j => by simpa [List.drop_succ_cons] using h (j + 1))]

theorem replace_fire_at (l : List Char) (k : Nat) (hk : extMatchHere (l.drop k) = true)
    (hbelow : ∀ j < k, extMatchHere (l.drop j) = false) :
    replaceExtAnchored l = l.take k := by
  induction l generalizing k with
  | nil => simp [extMatchHere] at hk
  | cons c t ih =>
    cases k with
    | zero =>
      simp only [List.drop_zero] at hk
      simp [replaceExtAnchored, hk]
    | succ k =>
      have h0 : extMatchHere (c :: t) = false := by simpa using hbelow 0 (Nat.succ_pos k)
      rw [replaceExtAnchored, if_neg (by simp [h0]), List.take_succ_cons]
      rw [ih k (by simpa [List.drop_succ_cons] using hk)
        (fun j hj => by simpa [List.drop_succ_cons] using hbelow (j + 1) (Nat.succ_lt_succ hj))]

theorem fire_drop_iff (l : List Char) (k : Nat) :
    extMatchHere (l.drop k) = true ↔ ∃ e ∈ audioExtsL, (l.map lowerChar).drop k = '.' :: e := by
  rw [extMatchHere_iff]
  constructor
  · rintro ⟨e, he, heq⟩
    exact ⟨e, he, by rw [← List.map_drop, heq]⟩
  · rintro ⟨e, he, heq⟩
    exact ⟨e, he, by rw [List.map_drop, heq]⟩

theorem fire_pos_eq {L : List Char} {k : Nat} {e : List Char} (h : L.drop k = '.' :: e) :
    k + e.length + 1 = L.length := by
  have hk : k ≤ L.length := by
    by_contra hgt
    push_neg at hgt
    rw [List.drop_eq_nil_of_le (le_of_lt hgt)] at h
    exact absurd h (by simp)
  have hlen := congrArg List.length h
  simp only [List.length_drop, List.length_cons] at hlen
  omega

theorem fire_not_lt {L : List Char} {k1 k2 : Nat} {e1 e2 : List Char}
    (he1 : e1 ∈ audioExtsL) (he2 : e2 ∈ audioExtsL)
    (h1 : L.drop k1 = '.' :: e1) (h2 : L.drop k2 = '.' :: e2) (hlt : k1 < k2) : False := by
  have p1 := fire_pos_eq h1
  have p2 := fire_pos_eq h2
  have l1 := audioExts_len e1 he1
  have l2 := audioExts_len e2 he2
  have he1len : e1.length = 4 := by omega
  have hk2 : k2 = k1 + 1 := by omega
  have he1flac := audioExts_len4 e1 he1 he1len
  subst he1flac
  subst hk2
  have hdrop := congrArg (List.drop 1) h1
  rw [List.drop_drop, h2] at hdrop
  simp at hdrop

theorem fire_unique {L : List Char} {k1 k2 : Nat} {e1 e2 : List Char}
    (he1 : e1 ∈ audioExtsL) (he2 : e2 ∈ audioExtsL)
    (h1 : L.drop k1 = '.' :: e1) (h2 : L.drop k2 = '.' :: e2) : k1 = k2 := by
  rcases Nat.lt_trichotomy k1 k2 with hlt | heq | hgt
  · exact absurd (fire_not_lt he1 he2 h1 h2 hlt) (by simp)
  · exact heq
  · exact absurd (fire_not_lt he2 he1 h2 h1 hgt) (by simp)

theorem stripSpecAux_of_none (es : List (List Char)) (l : List Char)
    (h : ∀ e ∈ es, litEnds ('.' :: e) (l.map lowerChar) = false) : stripSpecAux es l = l := by
  induction es with
  | nil => rfl
  | cons e0 es ih =>
    rw [stripSpecAux, if_neg (by simp [h e0 (List.mem_cons_self e0 es)])]
    exact ih (fun e1 h1 => h e1 (List.mem_cons_of_mem e0 h1))

theorem stripSpecAux_of_mem (es : List (List Char)) (l : List Char) (e : List Char)
    (he : e ∈ es) (hs : litEnds ('.' :: e) (l.map lowerChar) = true)
    (hu : ∀ e0 ∈ es, litEnds ('.' :: e0) (l.map lowerChar) = true → e0 = e) :
    stripSpecAux es l = l.take (l.length - (e.length + 1)) := by
  induction es with
  | nil => cases he
  | cons e0 es ih =>
    by_cases h0 : litEnds ('.' :: e0) (l.map lowerChar) = true
    · rw [stripSpecAux, if_pos h0, hu e0 (List.mem_cons_self e0 es) h0]
    · rw [stripSpecAux, if_neg h0]
      have hee : e ∈ es := by
        rcases List.mem_cons.mp he with rfl | hmem
        · exact absurd hs h0
        · exact hmem
      exact ih hee (fun e1 h1 hs1 => hu e1 (List.mem_cons_of_mem e0 h1) hs1)

theorem replace_eq_stripSpec (l : List Char) :
    replaceExtAnchored l = stripRecognizedExtSpec l := by
  by_cases hex : ∃ e ∈ audioExtsL, litEnds ('.' :: e) (l.map lowerChar) = true
  · obtain ⟨e, he, hsuf⟩ := hex
    obtain ⟨t, ht⟩ := litEnds_iff.mp hsuf
    have hLlen : (l.map lowerChar).length = l.length := by simp
    have hkfire : (l.map lowerChar).drop t.length = '.' :: e := by
      rw [ht]
      exact List.drop_left t _
    have hklen := fire_pos_eq hkfire
    have hfire : extMatchHere (l.drop t.length) = true :=
      (fire_drop_iff l t.length).mpr ⟨e, he, hkfire⟩
    have hbelow : ∀ j < t.length, extMatchHere (l.drop j) = false := by
      intro j hj
      cases hemh : extMatchHere (l.drop j) with
      | false => rfl
      | true =>
        obtain ⟨e', he', hk'⟩ := (fire_drop_iff l j).mp hemh
        have := fire_unique he' he hk' hkfire
        omega
    rw [replace_fire_at l t.length hfire hbelow]
    have huniq : ∀ e0 ∈ audioExtsL, litEnds ('.' :: e0) (l.map lowerChar) = true → e0 = e := by
      intro e0 he0 hs0
      obtain ⟨t0, ht0⟩ := litEnds_iff.mp hs0
      have hk0 : (l.map lowerChar).drop t0.length = '.' :: e0 := by
        rw [ht0]
        exact List.drop_left t0 _
      have heqk := fire_unique he0 he hk0 hkfire
      rw [heqk, hkfire] at hk0
      injection hk0 with _ hk0e
      exact hk0e.symm
    rw [stripRecognizedExtSpec, stripSpecAux_of_mem audioExtsL l e he hsuf huniq]
    congr 1
    omega
  · push_neg at hex
    have hnof : ∀ j, extMatchHere (l.drop j) = false := by
      intro j
      cases hemh : extMatchHere (l.drop j) with
      | false => rfl
      | true =>
        obtain ⟨e, he, hk⟩ := (fire_drop_iff l j).mp hemh
        exfalso
        have hsuf : litEnds ('.' :: e) (l.map lowerChar) = true :=
          litEnds_iff.mpr ⟨(l.map lowerChar).take j, by rw [← hk, List.take_append_drop]⟩
        exact absurd hsuf (by simpa using hex e he)
    rw [replace_of_no_fire l hnof, stripRecognizedExtSpec,
      stripSpecAux_of_none audioExtsL l (fun e h1 => by simpa using hex e h1)]

/-! ## Claim theorems (first batch) -/

/-- Claim C2 (status: code bug in the scanner regex).  The regex of
`findAudioLinkMatches` omits the `\.` before the extension alternation, so the
reference `[x](y.xmp3)` — whose path's file extension is the unrecognized
`xmp3` — yields a match, contradicting the claim (and the function's own doc
comment, which promises references that end with `.mp3`, `.m4a`, etc.).  This
theorem evaluates the scanner on that failing input: a match is emitted whose
captured text does not end in a dot followed by a recognized extension under
any letter case. -/
theorem claim_C2_unrecognized_extension_match :
    findAudioLinkMatches ("[x](y.xmp3)") = [⟨("y.xmp3").data, 0, 11⟩] ∧
    audioExtsL.all
      (fun e => !litEnds ('.' :: e) (("y.xmp3").data.map lowerChar)) = true := by
  decide

/-- Claim C3: the translator computes the zero-based line index of an offset
as the number of newline characters strictly before that offset (the
`split("\n").length - 1` computation of `insertTranscriptBelowRange`), the
insertion point is the start of the line immediately following that line (the
inserter splices at the character offset of line `lineIndex + 1`, column 0),
and on `"abc\ndef\nghi"` with end offset `7` the insertion line
`lineIndex + 1` is `2`. -/
theorem claim_C3_offset_to_line_translation (content : List Char) (endPos : Nat) :
    lineIndexOf content endPos = (content.take endPos).count '\n' ∧
    (∀ s t, insertTranscriptBelowRange content s endPos t =
      content.take (lineStartOff content ((content.take endPos).count '\n' + 1)) ++
        transcriptionCallout t ++
        content.drop (lineStartOff content ((content.take endPos).count '\n' + 1))) ∧
    lineIndexOf ("abc\ndef\nghi").data 7 + 1 = 2 := by
  have h1 : lineIndexOf content endPos = (content.take endPos).count '\n' := by
    simp [lineIndexOf, splitNl_length]
  refine ⟨h1, ?_, by decide⟩
  intro s t
  rw [← h1]
  rfl

/-- Claim C4: for every audio file path, the transcript locator returns
exactly `/tmp/` ++ (base name with a trailing recognized audio extension —
`.mp3`, `.wav`, `.m4a`, `.flac`, `.ogg`, `.aac`, case-insensitively —
stripped when present) ++ `.txt`: the anchored regex replace performed by
`getTranscriptPathInTmp` coincides with the case-insensitive suffix strip
described by the specification. -/
theorem claim_C4_transcript_path (audioPath : String) :
    getTranscriptPathInTmp audioPath =
      ("/tmp/") ++ (⟨stripRecognizedExtSpec (basename audioPath).data⟩ : String) ++ (".txt") := by
  show ("/tmp/") ++ (⟨replaceExtAnchored (basename audioPath).data⟩ : String) ++ (".txt") = _
  rw [replace_eq_stripSpec]

/-- Claim C5: the resolver keeps exactly the matches whose link text resolves
to a file, in input order (it is the evident filter-map over the input), and
its output is never longer than its input. -/
theorem claim_C5_resolver_filters (resolve : List Char → String → Option TFile)
    (ms : List LinkMatch) (p : String) :
    resolveMatchesToFiles resolve ms p =
      ms.filterMap
        (fun m => (resolve m.linkText p).map (fun t => ⟨t, m.startPos, m.endPos⟩)) ∧
    (resolveMatchesToFiles resolve ms p).length ≤ ms.length := by
  have h : resolveMatchesToFiles resolve ms p =
      ms.filterMap
        (fun m => (resolve m.linkText p).map (fun t => ⟨t, m.startPos, m.endPos⟩)) := by
    induction ms with
    | nil => rfl
    | cons m rest ih =>
      simp only [resolveMatchesToFiles, List.filterMap_cons]
      cases resolve m.linkText p <;> simp [ih]
  exact ⟨h, by rw [h]; exact List.length_filterMap_le _ _⟩

/-- Claim C7: with zero resolved references the selection step aborts with the
user-visible notice and no prompt; with exactly one it auto-selects it with no
prompt; with two or more it prompts with one entry per reference labelled by
its file path plus a cancel option, and cancelling yields a silent abort (no
notice). -/
theorem claim_C7_selection_step (files : List AudioLinkFile) (click : Option Nat) :
    (files = [] →
      selectionStep files click =
        (.noFiles, [("No valid audio links found in this note.")], none)) ∧
    (∀ f, files = [f] → selectionStep files click = (.selected f, [], none)) ∧
    (2 ≤ files.length →
      (selectionStep files click).2.2 =
        some (files.map (fun it => it.tfile.path), ("Cancel")) ∧
      (click = none →
        (selectionStep files click).1 = .canceled ∧ (selectionStep files click).2.1 = [])) := by
  refine ⟨?_, ?_, ?_⟩
  · rintro rfl
    rfl
  · rintro f rfl
    rfl
  · intro hlen
    match files, hlen with
    | f1 :: f2 :: rest, _ =>
      cases click with
      | none => exact ⟨rfl, fun _ => ⟨rfl, rfl⟩⟩
      | some i =>
        constructor
        · simp only [selectionStep, chooseAudioLinkModalResult]
          cases h : (f1 :: f2 :: rest)[i]? <;>
            simp [modalButtonLabels, modalCancelLabel]
        · intro h
          exact absurd h (by simp)

/-- Witness for claim C7 at concrete inputs: the empty, singleton and
two-element cases. -/
theorem claim_C7_selection_step_witness :
    selectionStep [] none =
      (.noFiles, [("No valid audio links found in this note.")], none) ∧
    selectionStep [⟨⟨"a.mp3"⟩, 0, 9⟩] (some 0) = (.selected ⟨⟨"a.mp3"⟩, 0, 9⟩, [], none) ∧
    (selectionStep [⟨⟨"a.mp3"⟩, 0, 9⟩, ⟨⟨"b.wav"⟩, 10, 20⟩] none).2.2 =
      some ([("a.mp3"), ("b.wav")], ("Cancel")) ∧
    (selectionStep [⟨⟨"a.mp3"⟩, 0, 9⟩, ⟨⟨"b.wav"⟩, 10, 20⟩] none).1 = .canceled ∧
    (selectionStep [⟨⟨"a.mp3"⟩, 0, 9⟩, ⟨⟨"b.wav"⟩, 10, 20⟩] none).2.1 = [] := by
  refine ⟨(claim_C7_selection_step [] none).1 rfl, ?_, ?_⟩
  · exact (claim_C7_selection_step [⟨⟨"a.mp3"⟩, 0, 9⟩] (some 0)).2.1 _ rfl
  · have h := (claim_C7_selection_step [⟨⟨"a.mp3"⟩, 0, 9⟩, ⟨⟨"b.wav"⟩, 10, 20⟩] none).2.2
      (by decide)
    exact ⟨h.1, (h.2 rfl).1, (h.2 rfl).2⟩

/-- Claim C8: the transcript reader returns the file contents trimmed of
leading and trailing whitespace; an absent (hence unreadable) file is an
error, on which the pipeline tail leaves the note content unchanged and
reports the generic notice. -/
theorem claim_C8_transcript_reader (fileContents : String → Option String)
    (transcriptPath : String) (content : List Char) (s e : Nat) :
    (∀ data, fileContents transcriptPath = some data →
      readTranscriptFile fileContents transcriptPath = .ok (jsTrim data)) ∧
    (fileContents transcriptPath = none →
      (∃ msg, readTranscriptFile fileContents transcriptPath = .error msg) ∧
      transcriptReadAndInsert fileContents transcriptPath content s e =
        (content, [("Could not read the transcript file.")])) := by
  constructor
  · intro data h
    simp [readTranscriptFile, h]
  · intro h
    refine ⟨⟨("ENOENT: no such file or directory"), ?_⟩, ?_⟩
    · simp [readTranscriptFile, h]
    · simp [transcriptReadAndInsert, readTranscriptFile, h]

/-- Witness for claim C8 at a concrete file system: a present transcript is
returned trimmed; a missing transcript leaves the note untouched with the
generic notice. -/
theorem claim_C8_transcript_reader_witness :
    readTranscriptFile
        (fun p => if p = ("/tmp/Meeting.txt") then some ("  Hello world\n") else none)
        ("/tmp/Meeting.txt") = .ok ("Hello world") ∧
    transcriptReadAndInsert
        (fun p => if p = ("/tmp/Meeting.txt") then some ("  Hello world\n") else none)
        ("/tmp/gone.txt") ("[[a.mp3]]").data 0 9 =
      (("[[a.mp3]]").data, [("Could not read the transcript file.")]) := by
  constructor
  · have h := (claim_C8_transcript_reader
      (fun p => if p = ("/tmp/Meeting.txt") then some ("  Hello world\n") else none)
      ("/tmp/Meeting.txt") [] 0 0).1 ("  Hello world\n") (by decide)
    have htrim : jsTrim ("  Hello world\n") = ("Hello world") := by decide
    rw [h, htrim]
  · exact ((claim_C8_transcript_reader
      (fun p => if p = ("/tmp/Meeting.txt") then some ("  Hello world\n") else none)
      ("/tmp/gone.txt") (("[[a.mp3]]").data) 0 9).2 (by decide)).2

/-- Counterexample to claim C9: for a mid-document reference the line
immediately following the end-offset line in the result is a blank line — the
leading `\n` of the insertion text — and the callout header only appears on
the line after that.  Document `"a [[x.mp3]] b\nnext"`, end offset `11`,
transcript `"T"`. -/
theorem claim_C9_counterexample :
    insertTranscriptBelowRange ("a [[x.mp3]] b\nnext").data 2 11 ("T").data
      = ("a [[x.mp3]] b\n\n>[!note] Transcription\nT\nnext").data ∧
    (splitNl (insertTranscriptBelowRange ("a [[x.mp3]] b\nnext").data 2 11 ("T").data))[
        lineIndexOf ("a [[x.mp3]] b\nnext").data 11 + 1]? = some [] ∧
    (splitNl (insertTranscriptBelowRange ("a [[x.mp3]] b\nnext").data 2 11 ("T").data))[
        lineIndexOf ("a [[x.mp3]] b\nnext").data 11 + 1]? ≠
      some ((">[!note] Transcription").data) := by
  decide

/-- Counterexample to claim C10: on `"[[a]b.mp3]]"` the two scanners disagree —
`findAudioLinkMatches` (whose wiki-link class forbids `]` in the target) finds
nothing, while `findAudioLinks` (whose class forbids `[` instead) captures
`a]b.mp3`. -/
theorem claim_C10_counterexample :
    (findAudioLinks ("[[a]b.mp3]]")).map (fun a => (a.filePath, a.startPos, a.endPos)) ≠
      (findAudioLinkMatches ("[[a]b.mp3]]")).map (fun m => (m.linkText, m.startPos, m.endPos)) ∧
    findAudioLinkMatches ("[[a]b.mp3]]") = [] ∧
    findAudioLinks ("[[a]b.mp3]]") = [⟨("a]b.mp3").data, 0, 11⟩] := by
  refine ⟨?_, by decide, by decide⟩
  decide

/-! ## Lemmas about the regex scan -/

theorem tryBranch1_not_lbrack {c : Char} (t : List Char) (h : c ≠ '[') :
    tryBranch1 (c :: t) = none := by
  rw [tryBranch1, if_neg h]

theorem tryBranch2With_not_lbrack (bad : Char) {c : Char} (t : List Char) (h : c ≠ '[') :
    tryBranch2With bad (c :: t) = none := by
  cases t with
  | nil => rfl
  | cons c2 t2 =>
    rw [tryBranch2With, if_neg (fun hh => h hh.1)]

theorem tryMatchWith_not_lbrack (bad : Char) {c : Char} (t : List Char) (h : c ≠ '[') :
    tryMatchWith bad (c :: t) = none := by
  rw [tryMatchWith, tryBranch1_not_lbrack t h]
  exact tryBranch2With_not_lbrack bad t h

theorem scan_none (bad : Char) (l : List Char) (h : '[' ∉ l) :
    ∀ f i, scanAudio (tryMatchWith bad) f l i = [] := by
  induction l with
  | nil =>
    intro f i
    cases f <;> rfl
  | cons c t ih =>
    intro f i
    cases f with
    | zero => rfl
    | succ f =>
      have hc : c ≠ '[' := fun hh => h (hh ▸ List.mem_cons_self c t)
      simp only [scanAudio, tryMatchWith_not_lbrack bad t hc]
      exact ih (fun hm => h (List.mem_cons_of_mem c hm)) f (i + 1)

theorem scan_skip (bad : Char) (pre l : List Char) (hpre : '[' ∉ pre) :
    ∀ f i, pre.length + l.length < f →
      scanAudio (tryMatchWith bad) f (pre ++ l) i =
        scanAudio (tryMatchWith bad) (f - pre.length) l (i + pre.length) := by
  induction pre with
  | nil =>
    intro f i _
    simp
  | cons c pre ih =>
    intro f i hf
    cases f with
    | zero => omega
    | succ f =>
      have hc : c ≠ '[' := fun hh => hpre (hh ▸ List.mem_cons_self c pre)
      simp only [List.cons_append, scanAudio, tryMatchWith_not_lbrack bad _ hc]
      rw [ih (fun hm => hpre (List.mem_cons_of_mem c hm)) f (i + 1)
        (by simp only [List.length_cons] at hf; omega)]
      simp only [List.length_cons]
      rw [show f - pre.length = f + 1 - (pre.length + 1) from by omega,
        show i + 1 + pre.length = i + (pre.length + 1) from by omega]

theorem tryBranch1_len_pos {l : List Char} {cap : List Char} {len : Nat}
    (h : tryBranch1 l = some (cap, len)) : 1 ≤ len := by
  cases l with
  | nil => simp [tryBranch1] at h
  | cons c l1 =>
    rw [tryBranch1] at h
    split at h
    · split at h
      · split at h
        · injection h with h1
          injection h1 with _ h2
          omega
        · exact absurd h (by simp)
      · exact absurd h (by simp)
    · exact absurd h (by simp)

theorem tryBranch2With_len_pos {bad : Char} {l : List Char} {cap : List Char} {len : Nat}
    (h : tryBranch2With bad l = some (cap, len)) : 1 ≤ len := by
  match l with
  | [] => simp [tryBranch2With] at h
  | c :: [] => simp [tryBranch2With] at h
  | c1 :: c2 :: l2 =>
    rw [tryBranch2With] at h
    split at h
    · split at h
      · injection h with h1
        injection h1 with _ h2
        omega
      · exact absurd h (by simp)
    · exact absurd h (by simp)

theorem tryMatchWith_len_pos (bad : Char) {l : List Char} {cap : List Char} {len : Nat}
    (h : tryMatchWith bad l = some (cap, len)) : 1 ≤ len := by
  rw [tryMatchWith] at h
  cases hb : tryBranch1 l with
  | some r =>
    rw [hb] at h
    injection h with h1
    exact tryBranch1_len_pos (h1 ▸ hb)
  | none =>
    rw [hb] at h
    exact tryBranch2With_len_pos h

theorem scan_inv (m : List Char → Option (List Char × Nat))
    (hm : ∀ l cap len, m l = some (cap, len) → 1 ≤ len) :
    ∀ f l i, (∀ x ∈ scanAudio m f l i, i ≤ x.startPos ∧ x.startPos < x.endPos) ∧
      List.Chain' (fun a b => a.endPos ≤ b.startPos) (scanAudio m f l i) := by
  intro f
  induction f with
  | zero =>
    intro l i
    constructor
    · intro x hx
      simp [scanAudio] at hx
    · simp [scanAudio]
  | succ f ih =>
    intro l i
    cases hml : m l with
    | none =>
      cases l with
      | nil =>
        have heq : scanAudio m (f + 1) [] i = [] := by simp [scanAudio, hml]
        rw [heq]
        simp
      | cons c t =>
        have heq : scanAudio m (f + 1) (c :: t) i = scanAudio m f t (i + 1) := by
          simp [scanAudio, hml]
        rw [heq]
        have h := ih t (i + 1)
        exact ⟨fun x hx => ⟨le_trans (by omega) (h.1 x hx).1, (h.1 x hx).2⟩, h.2⟩
    | some r =>
      obtain ⟨cap, len⟩ := r
      have hlen := hm l cap len hml
      by_cases hcap : cap = []
      · have heq : scanAudio m (f + 1) l i = scanAudio m f (l.drop len) (i + len) := by
          simp [scanAudio, hml, hcap]
        rw [heq]
        have h := ih (l.drop len) (i + len)
        exact ⟨fun x hx => ⟨le_trans (by omega) (h.1 x hx).1, (h.1 x hx).2⟩, h.2⟩
      · have heq : scanAudio m (f + 1) l i =
            ⟨cap, i, i + len⟩ :: scanAudio m f (l.drop len) (i + len) := by
          simp [scanAudio, hml, hcap]
        rw [heq]
        have h := ih (l.drop len) (i + len)
        constructor
        · intro x hx
          rcases List.mem_cons.mp hx with rfl | hx2
          · exact ⟨le_refl i, by simp only []; omega⟩
          · exact ⟨le_trans (by omega) (h.1 x hx2).1, (h.1 x hx2).2⟩
        · rw [List.chain'_cons']
          refine ⟨?_, h.2⟩
          intro y hy
          have hmem : y ∈ scanAudio m f (l.drop len) (i + len) := by
            cases hsc : scanAudio m f (l.drop len) (i + len) with
            | nil =>
              rw [hsc] at hy
              simp at hy
            | cons a as =>
              rw [hsc] at hy
              simp at hy
              subst hy
              exact List.mem_cons_self a as
          exact (h.1 y hmem).1

/-! ## Evaluating the matcher on a well-formed reference -/

theorem drop_len_add (a b : List Char) (k : Nat) : (a ++ b).drop (a.length + k) = b.drop k := by
  rw [← List.drop_drop, List.drop_left]

theorem take_len_add (a b : List Char) (k : Nat) : (a ++ b).take (a.length + k) = a ++ b.take k := by
  induction a with
  | nil => simp
  | cons c t ih =>
    simp only [List.cons_append, List.length_cons]
    rw [show t.length + 1 + k = (t.length + k) + 1 from by omega, List.take_succ_cons, ih]

theorem drop_append_le {a b : List Char} {d : Nat} (h : d ≤ a.length) :
    (a ++ b).drop d = a.drop d ++ b := by
  induction a generalizing d with
  | nil =>
    simp at h
    subst h
    simp
  | cons c t ih =>
    cases d with
    | zero => simp
    | succ d =>
      simp only [List.cons_append, List.drop_succ_cons]
      exact ih (by simpa using h)

theorem runUntil_append (bad : Char) (a b : List Char) (ha : bad ∉ a) :
    runUntil bad (a ++ bad :: b) = a := by
  induction a with
  | nil => simp [runUntil]
  | cons c t ih =>
    have hc : ¬c = bad := fun hh => ha (hh ▸ List.mem_cons_self c t)
    simp only [List.cons_append, runUntil, if_neg hc]
    exact congrArg (fun x => c :: x) (ih (fun hm => ha (List.mem_cons_of_mem c hm)))

theorem runUntil_all (bad : Char) (l : List Char) (h : bad ∉ l) : runUntil bad l = l := by
  induction l with
  | nil => rfl
  | cons c t ih =>
    have hc : ¬c = bad := fun hh => h (hh ▸ List.mem_cons_self c t)
    simp only [runUntil, if_neg hc]
    exact congrArg (fun x => c :: x) (ih (fun hm => h (List.mem_cons_of_mem c hm)))

theorem audioExtsL_eq :
    audioExtsL = [('m' :: 'p' :: '3' :: []), ('w' :: 'a' :: 'v' :: []),
      ('m' :: '4' :: 'a' :: []), ('f' :: 'l' :: 'a' :: 'c' :: []),
      ('o' :: 'g' :: 'g' :: []), ('a' :: 'a' :: 'c' :: [])] := rfl

theorem audioExts_no_special :
    ∀ e ∈ audioExtsL, ')' ∉ e ∧ ']' ∉ e ∧ '[' ∉ e ∧ '.' ∉ e := by decide

theorem descend_eq_some (alts : List (List Char)) (close l : List Char) (p₀ elen : Nat)
    (h1 : 1 ≤ p₀) (htry : tryAlts alts close (l.drop p₀) = some elen) :
    ∀ p, p₀ ≤ p → (∀ j, p₀ < j → j ≤ p → tryAlts alts close (l.drop j) = none) →
      plusAltsDescend alts close l p = some (p₀ + elen) := by
  intro p
  induction p with
  | zero =>
    intro hp _
    omega
  | succ p ih =>
    intro hp hfail
    by_cases hp0 : p₀ = p + 1
    · subst hp0
      simp [plusAltsDescend, htry]
    · have hle : p₀ ≤ p := by omega
      simp only [plusAltsDescend, hfail (p + 1) (by omega) (le_refl _)]
      exact ih hle (fun j hj1 hj2 => hfail j hj1 (by omega))

theorem contentMatch_clean (bad : Char) (close path e rest : List Char)
    (he : e ∈ audioExtsL) (hpath : bad ∉ path) (hbad : bad = ')' ∨ bad = ']')
    (hclose : litStarts close (bad :: rest) = true) :
    contentMatch bad close (path ++ '.' :: (e ++ bad :: rest)) =
      some (path.length + 1 + e.length) := by
  have hnospec := audioExts_no_special e he
  have he6 := he
  rw [audioExtsL_eq] at he6
  simp only [List.mem_cons, List.not_mem_nil, or_false] at he6
  have hne : bad ∉ ('.' :: e) := by
    intro hm
    rcases List.mem_cons.mp hm with hm1 | hm2
    · rcases hbad with rfl | rfl <;> exact absurd hm1.symm (by decide)
    · rcases hbad with rfl | rfl
      · exact hnospec.1 hm2
      · exact hnospec.2.1 hm2
  have hrun : runUntil bad (path ++ '.' :: (e ++ bad :: rest)) = path ++ '.' :: e := by
    rw [show path ++ '.' :: (e ++ bad :: rest) = (path ++ '.' :: e) ++ bad :: rest from by simp]
    exact runUntil_append bad (path ++ '.' :: e) rest (by
      intro hm
      rcases List.mem_append.mp hm with hm1 | hm2
      · exact hpath hm1
      · exact hne hm2)
  rw [contentMatch, hrun, show (path ++ '.' :: e).length = path.length + (e.length + 1) from by
    simp]
  have hdropP : (path ++ '.' :: (e ++ bad :: rest)).drop (path.length + 1) =
      e ++ bad :: rest := by
    rw [show path ++ '.' :: (e ++ bad :: rest) = (path ++ ['.']) ++ (e ++ bad :: rest) from by
        simp,
      List.drop_left' (by simp)]
  have htry : tryAlts audioExtsL close
      ((path ++ '.' :: (e ++ bad :: rest)).drop (path.length + 1)) = some e.length := by
    rw [hdropP, audioExtsL_eq]
    rcases he6 with rfl | rfl | rfl | rfl | rfl | rfl <;>
      simp +decide [tryAlts, ciMatchLit, hclose]
  have hfail : ∀ j, path.length + 1 < j → j ≤ path.length + (e.length + 1) →
      tryAlts audioExtsL close ((path ++ '.' :: (e ++ bad :: rest)).drop j) = none := by
    intro j hj1 hj2
    obtain ⟨d, rfl, hd1, hd2⟩ : ∃ d, j = path.length + 1 + d ∧ 1 ≤ d ∧ d ≤ e.length :=
      ⟨j - (path.length + 1), by omega, by omega, by omega⟩
    have hdropd : (path ++ '.' :: (e ++ bad :: rest)).drop (path.length + 1 + d) =
        e.drop d ++ bad :: rest := by
      rw [show path ++ '.' :: (e ++ bad :: rest) = (path ++ ['.']) ++ (e ++ bad :: rest) from by
          simp,
        show path.length + 1 + d = (path ++ ['.']).length + d from by simp, drop_len_add,
        drop_append_le hd2]
    rw [hdropd, audioExtsL_eq]
    rcases hbad with rfl | rfl <;>
      rcases he6 with rfl | rfl | rfl | rfl | rfl | rfl <;>
      · simp only [List.length_cons, List.length_nil] at hd2
        interval_cases d <;> simp +decide [tryAlts, ciMatchLit]
  exact descend_eq_some audioExtsL close _ (path.length + 1) e.length (by omega) htry
    (path.length + (e.length + 1)) (by omega) hfail

theorem tryBranch1_at_ref (label path e post : List Char) (he : e ∈ audioExtsL)
    (hlabel : ']' ∉ label) (hpath : ')' ∉ path) :
    tryBranch1 ('[' :: (label ++ ']' :: '(' :: (path ++ '.' :: (e ++ ')' :: post)))) =
      some (path ++ '.' :: e, label.length + path.length + e.length + 5) := by
  rw [tryBranch1, if_pos rfl]
  have hrun : runUntil ']' (label ++ ']' :: '(' :: (path ++ '.' :: (e ++ ')' :: post))) =
      label :=
    runUntil_append ']' label ('(' :: (path ++ '.' :: (e ++ ')' :: post))) hlabel
  have hdropq : (label ++ ']' :: '(' :: (path ++ '.' :: (e ++ ')' :: post))).drop
      label.length = ']' :: '(' :: (path ++ '.' :: (e ++ ')' :: post)) :=
    List.drop_left' rfl
  have hprobe : litStarts ([']', '('])
      ((label ++ ']' :: '(' :: (path ++ '.' :: (e ++ ')' :: post))).drop label.length) =
        true := by
    rw [hdropq]
    simp [litStarts]
  have hsbd : starBrackDescend (label ++ ']' :: '(' :: (path ++ '.' :: (e ++ ')' :: post)))
      label.length = some label.length := by
    cases hl : label.length with
    | zero =>
      rw [hl] at hprobe
      rw [starBrackDescend, if_pos (by simpa using hprobe)]
    | succ q =>
      rw [hl] at hprobe
      rw [starBrackDescend, if_pos hprobe]
  have hdropq2 : (label ++ ']' :: '(' :: (path ++ '.' :: (e ++ ')' :: post))).drop
      (label.length + 2) = path ++ '.' :: (e ++ ')' :: post) := by
    rw [show label ++ ']' :: '(' :: (path ++ '.' :: (e ++ ')' :: post)) =
        (label ++ [']', '(']) ++ (path ++ '.' :: (e ++ ')' :: post)) from by simp]
    exact List.drop_left' (by simp)
  rw [hrun, hsbd]
  simp only [hdropq2,
    contentMatch_clean ')' ([')']) path e post he hpath (Or.inl rfl) (by simp [litStarts])]
  have htake : (path ++ '.' :: (e ++ ')' :: post)).take (path.length + 1 + e.length) =
      path ++ '.' :: e := by
    rw [show path ++ '.' :: (e ++ ')' :: post) = (path ++ '.' :: e) ++ ')' :: post from by simp]
    exact List.take_left' (by simp <;> omega)
  simp only [htake, Option.some.injEq, Prod.mk.injEq, eq_self_iff_true, true_and]
  omega

theorem tryBranch2WithL_at_ref (path e post : List Char) (he : e ∈ audioExtsL)
    (hpath : ']' ∉ path) :
    tryBranch2With ']' ('[' :: '[' :: (path ++ '.' :: (e ++ ']' :: ']' :: post))) =
      some (path ++ '.' :: e, path.length + e.length + 5) := by
  rw [tryBranch2With, if_pos ⟨rfl, rfl⟩]
  simp only [show path ++ '.' :: (e ++ ']' :: ']' :: post) =
      path ++ '.' :: (e ++ ']' :: (']' :: post)) from by simp,
    contentMatch_clean ']' ([']', ']']) path e (']' :: post) he hpath (Or.inr rfl)
      (by simp [litStarts])]
  have htake : (path ++ '.' :: (e ++ ']' :: (']' :: post))).take (path.length + 1 + e.length) =
      path ++ '.' :: e := by
    rw [show path ++ '.' :: (e ++ ']' :: (']' :: post)) =
        (path ++ '.' :: e) ++ ']' :: ']' :: post from by simp]
    exact List.take_left' (by simp <;> omega)
  simp only [htake, Option.some.injEq, Prod.mk.injEq, eq_self_iff_true, true_and]
  omega

theorem drop_head_mem {a b : List Char} {j : Nat} (h : j < a.length) :
    ∃ c t, (a ++ b).drop j = c :: t ∧ c ∈ a := by
  induction a generalizing j with
  | nil => simp at h
  | cons x xs ih =>
    cases j with
    | zero => exact ⟨x, xs ++ b, by simp, List.mem_cons_self x xs⟩
    | succ j =>
      obtain ⟨c, t, hd, hm⟩ := ih (by simpa using h)
      exact ⟨c, t, by simpa [List.drop_succ_cons] using hd, List.mem_cons_of_mem x hm⟩

theorem starBrackDescend_none (l1 : List Char) :
    ∀ q, (∀ j, j ≤ q → litStarts ([']', '(']) (l1.drop j) = false) →
      starBrackDescend l1 q = none := by
  intro q
  induction q with
  | zero =>
    intro h
    rw [starBrackDescend, if_neg (by simpa using h 0 (le_refl 0))]
  | succ q ih =>
    intro h
    rw [starBrackDescend, if_neg (by simp [h (q + 1) (le_refl _)])]
    exact ih (fun j hj => h j (by omega))

theorem tryBranch1_at_wiki (path e post : List Char) (he : e ∈ audioExtsL)
    (hpath : ']' ∉ path) :
    tryBranch1 ('[' :: '[' :: (path ++ '.' :: (e ++ ']' :: ']' :: post))) = none := by
  have hnospec := audioExts_no_special e he
  rw [tryBranch1, if_pos rfl]
  have hnorb : ']' ∉ ('[' :: (path ++ '.' :: e)) := by
    intro hm
    rcases List.mem_cons.mp hm with hm1 | hm2
    · exact absurd hm1.symm (by decide)
    · rcases List.mem_append.mp hm2 with hm3 | hm4
      · exact hpath hm3
      · rcases List.mem_cons.mp hm4 with hm5 | hm6
        · exact absurd hm5.symm (by decide)
        · exact hnospec.2.1 hm6
  have hshape : '[' :: (path ++ '.' :: (e ++ ']' :: ']' :: post)) =
      ('[' :: (path ++ '.' :: e)) ++ ']' :: (']' :: post) := by simp
  have hrun : runUntil ']' ('[' :: (path ++ '.' :: (e ++ ']' :: ']' :: post))) =
      '[' :: (path ++ '.' :: e) := by
    rw [hshape]
    exact runUntil_append ']' ('[' :: (path ++ '.' :: e)) (']' :: post) hnorb
  have hnone : starBrackDescend ('[' :: (path ++ '.' :: (e ++ ']' :: ']' :: post)))
      ('[' :: (path ++ '.' :: e)).length = none := by
    apply starBrackDescend_none
    intro j hj
    rw [show '[' :: (path ++ '.' :: (e ++ ']' :: ']' :: post)) =
        ('[' :: (path ++ '.' :: e)) ++ ']' :: (']' :: post) from hshape]
    rcases Nat.lt_or_ge j ('[' :: (path ++ '.' :: e)).length with hlt | hge
    · obtain ⟨c, t, hct, hcm⟩ := drop_head_mem (b := ']' :: (']' :: post)) hlt
      rw [hct]
      have hc : ¬(']' = c) := by
        intro hh
        rw [← hh] at hcm
        exact hnorb hcm
      simp only [litStarts, decide_eq_false hc, Bool.false_and]
    · have hj2 : j = ('[' :: (path ++ '.' :: e)).length := le_antisymm hj hge
      subst hj2
      rw [List.drop_left]
      simp [litStarts]
  rw [hrun, hnone]

/-! ## Where the inserted block lands, line by line -/

theorem splitNl_append (a b : List Char) :
    splitNl (a ++ '\n' :: b) = splitNl a ++ splitNl b := by
  induction a with
  | nil => simp [splitNl]
  | cons c t ih =>
    by_cases hc : c = '\n'
    · subst hc
      simp [splitNl, ih]
    · simp only [List.cons_append, splitNl, if_neg hc, List.append_eq]
      rw [ih]
      cases hsp : splitNl t with
      | nil => exact absurd hsp (splitNl_ne_nil t)
      | cons h r => simp

theorem splitNl_no_newline (l : List Char) (h : '\n' ∉ l) : splitNl l = [l] := by
  induction l with
  | nil => rfl
  | cons c t ih =>
    have hc : ¬c = '\n' := fun hh => h (hh ▸ List.mem_cons_self c t)
    simp only [splitNl, if_neg hc, ih (fun hm => h (List.mem_cons_of_mem c hm))]

theorem lineStartOff_of_count_lt (l : List Char) :
    ∀ k, l.count '\n' < k → lineStartOff l k = l.length := by
  induction l with
  | nil =>
    intro k _
    cases k <;> rfl
  | cons c t ih =>
    intro k hk
    cases k with
    | zero => omega
    | succ k =>
      have hcount : (c :: t).count '\n' = t.count '\n' + if c = '\n' then 1 else 0 := by
        by_cases hcc : c = '\n' <;> simp [List.count_cons, hcc]
      by_cases hc : c = '\n'
      · rw [lineStartOff, if_pos hc, ih k (by rw [hcount, if_pos hc] at hk; omega)]
        simp only [List.length_cons]
        omega
      · rw [lineStartOff, if_neg hc, ih (k + 1) (by rw [hcount, if_neg hc] at hk; omega)]
        simp only [List.length_cons]
        omega

theorem splitNl_take_lineStart (l : List Char) :
    ∀ k, 1 ≤ k → k ≤ l.count '\n' →
      splitNl (l.take (lineStartOff l k)) = (splitNl l).take k ++ [[]] := by
  induction l with
  | nil =>
    intro k h1 h2
    simp at h2
    omega
  | cons c t ih =>
    intro k h1 h2
    obtain ⟨k', rfl⟩ : ∃ k', k = k' + 1 := ⟨k - 1, by omega⟩
    have hcount : (c :: t).count '\n' = t.count '\n' + if c = '\n' then 1 else 0 := by
      by_cases hcc : c = '\n' <;> simp [List.count_cons, hcc]
    by_cases hc : c = '\n'
    · rw [lineStartOff, if_pos hc]
      rw [show (1 : Nat) + lineStartOff t k' = lineStartOff t k' + 1 from by omega,
        List.take_succ_cons]
      subst hc
      rw [show splitNl ('\n' :: t.take (lineStartOff t k')) =
          [] :: splitNl (t.take (lineStartOff t k')) from by simp [splitNl]]
      rw [show splitNl ('\n' :: t) = [] :: splitNl t from by simp [splitNl],
        List.take_succ_cons]
      by_cases hk' : k' = 0
      · subst hk'
        simp [lineStartOff, splitNl]
      · rw [ih k' (by omega) (by rw [hcount] at h2; simp at h2; omega)]
        simp
    · rw [lineStartOff, if_neg hc]
      rw [show (1 : Nat) + lineStartOff t (k' + 1) = lineStartOff t (k' + 1) + 1 from by omega,
        List.take_succ_cons]
      have h2' : k' + 1 ≤ t.count '\n' := by
        rw [hcount, if_neg hc] at h2
        omega
      have iht := ih (k' + 1) (by omega) h2'
      cases hsp : splitNl t with
      | nil => exact absurd hsp (splitNl_ne_nil t)
      | cons h r =>
        rw [hsp] at iht
        rw [show splitNl (c :: t) = (c :: h) :: r from by
          simp only [splitNl, if_neg hc, hsp]]
        simp only [splitNl, if_neg hc, iht, List.take_succ_cons]
        simp

theorem claim_C9_helper_split (content transcript : List Char) (o : Nat) :
    splitNl (content.take o ++ transcriptionCallout transcript ++ content.drop o) =
      splitNl (content.take o) ++ [((">[!note] Transcription").data)] ++
        splitNl transcript ++ splitNl (content.drop o) := by
  rw [show content.take o ++ transcriptionCallout transcript ++ content.drop o =
      content.take o ++ '\n' :: ((">[!note] Transcription").data ++
        '\n' :: (transcript ++ '\n' :: content.drop o)) from by
    simp [transcriptionCallout]]
  rw [splitNl_append, splitNl_append, splitNl_append,
    splitNl_no_newline ((">[!note] Transcription").data) (by decide)]
  simp

/-- Claim C9 (amended): the inserter is a pure insertion — the document splits
as `pre ++ suf` with the callout text inserted in between, so every original
character is preserved — and the insertion point is the start of the line
after the end-offset line, clamped to the end of the document.  Line-wise, the
result is the lines before the insertion point, then the callout header, the
transcript lines, and the rest; when the end-offset line is the last line the
header therefore lands on the line immediately following it, and otherwise an
inserted blank line separates it from the end-offset line. -/
theorem claim_C9_pure_insertion_amended (content : List Char) (startPos endPos : Nat)
    (transcript : List Char) :
    (∃ pre suf, pre ++ suf = content ∧
      insertTranscriptBelowRange content startPos endPos transcript =
        pre ++ transcriptionCallout transcript ++ suf) ∧
    splitNl (insertTranscriptBelowRange content startPos endPos transcript) =
      splitNl (content.take (lineStartOff content (lineIndexOf content endPos + 1))) ++
        [((">[!note] Transcription").data)] ++ splitNl transcript ++
        splitNl (content.drop (lineStartOff content (lineIndexOf content endPos + 1))) ∧
    ((splitNl content).length ≤ lineIndexOf content endPos + 1 →
      content.take (lineStartOff content (lineIndexOf content endPos + 1)) = content ∧
      content.drop (lineStartOff content (lineIndexOf content endPos + 1)) = []) ∧
    (lineIndexOf content endPos + 1 < (splitNl content).length →
      splitNl (content.take (lineStartOff content (lineIndexOf content endPos + 1))) =
        (splitNl content).take (lineIndexOf content endPos + 1) ++ [[]]) := by
  refine ⟨?_, ?_, ?_, ?_⟩
  · exact ⟨content.take (lineStartOff content (lineIndexOf content endPos + 1)),
      content.drop (lineStartOff content (lineIndexOf content endPos + 1)),
      List.take_append_drop _ _, rfl⟩
  · exact claim_C9_helper_split content transcript _
  · intro hge
    have hcl : content.count '\n' < lineIndexOf content endPos + 1 := by
      have := splitNl_length content
      omega
    rw [lineStartOff_of_count_lt content _ hcl]
    exact ⟨List.take_length content, List.drop_length content⟩
  · intro hlt
    apply splitNl_take_lineStart content (lineIndexOf content endPos + 1) (by omega)
    have := splitNl_length content
    omega

/-- Witness for the amended claim C9: a mid-document insertion (blank line
before the header) and an end-of-document insertion (header directly below). -/
theorem claim_C9_pure_insertion_amended_witness :
    splitNl (insertTranscriptBelowRange (("a [[x.mp3]] b\nnext").data) 2 11 (("T").data)) =
      [("a [[x.mp3]] b").data, [], (">[!note] Transcription").data, ("T").data,
        ("next").data] ∧
    splitNl (insertTranscriptBelowRange (("See [[m.m4a]]").data) 4 13 (("T").data)) =
      [("See [[m.m4a]]").data, (">[!note] Transcription").data, ("T").data, []] := by
  constructor
  · have h := claim_C9_pure_insertion_amended (("a [[x.mp3]] b\nnext").data) 2 11 (("T").data)
    rw [h.2.1, h.2.2.2 (by decide)]
    decide
  · have h := claim_C9_pure_insertion_amended (("See [[m.m4a]]").data) 4 13 (("T").data)
    rw [h.2.1, (h.2.2.1 (by decide)).1, (h.2.2.1 (by decide)).2]
    decide

theorem scan_single (bad : Char) (pre ref post : List Char) (cap : List Char)
    (hpre : '[' ∉ pre) (hpost : '[' ∉ post) (hcap : cap ≠ [])
    (hat : tryMatchWith bad (ref ++ post) = some (cap, ref.length)) :
    scanAudio (tryMatchWith bad) ((pre ++ (ref ++ post)).length + 1) (pre ++ (ref ++ post)) 0 =
      [⟨cap, pre.length, pre.length + ref.length⟩] := by
  rw [scan_skip bad pre (ref ++ post) hpre ((pre ++ (ref ++ post)).length + 1) 0
    (by simp only [List.length_append]; omega)]
  rw [show (pre ++ (ref ++ post)).length + 1 - pre.length = (ref.length + post.length) + 1 from
    by simp only [List.length_append]; omega]
  have hstep : scanAudio (tryMatchWith bad) ((ref.length + post.length) + 1) (ref ++ post)
      (0 + pre.length) =
      ⟨cap, 0 + pre.length, 0 + pre.length + ref.length⟩ ::
        scanAudio (tryMatchWith bad) (ref.length + post.length) ((ref ++ post).drop ref.length)
          (0 + pre.length + ref.length) := by
    simp only [scanAudio, hat]
    rw [if_neg hcap]
  rw [hstep, List.drop_left, scan_none bad post hpost]
  simp

theorem scan_md_doc (bad : Char) (e pre label path post : List Char) (he : e ∈ audioExtsL)
    (hpre : '[' ∉ pre) (hpost : '[' ∉ post) (hlabel : ']' ∉ label) (hpath1 : ')' ∉ path) :
    scanAudio (tryMatchWith bad)
        ((pre ++ '[' :: label ++ ']' :: '(' :: path ++ '.' :: e ++ ')' :: post).length + 1)
        (pre ++ '[' :: label ++ ']' :: '(' :: path ++ '.' :: e ++ ')' :: post) 0 =
      [⟨path ++ '.' :: e, pre.length,
        pre.length + (label.length + path.length + e.length + 5)⟩] := by
  have hlen : ('[' :: (label ++ ']' :: '(' :: (path ++ '.' :: (e ++ [')'])))).length =
      label.length + path.length + e.length + 5 := by
    simp only [List.length_cons, List.length_append, List.length_nil]
    omega
  have hat : tryMatchWith bad
      (('[' :: (label ++ ']' :: '(' :: (path ++ '.' :: (e ++ [')'])))) ++ post) =
      some (path ++ '.' :: e,
        ('[' :: (label ++ ']' :: '(' :: (path ++ '.' :: (e ++ [')'])))).length) := by
    rw [show ('[' :: (label ++ ']' :: '(' :: (path ++ '.' :: (e ++ [')'])))) ++ post =
        '[' :: (label ++ ']' :: '(' :: (path ++ '.' :: (e ++ ')' :: post))) from by simp]
    rw [tryMatchWith, tryBranch1_at_ref label path e post he hlabel hpath1, hlen]
  have hdoc : pre ++ '[' :: label ++ ']' :: '(' :: path ++ '.' :: e ++ ')' :: post =
      pre ++ (('[' :: (label ++ ']' :: '(' :: (path ++ '.' :: (e ++ [')'])))) ++ post) := by
    simp
  rw [hdoc, scan_single bad pre _ post _ hpre hpost (by simp) hat, hlen]

theorem scan_wiki_doc_L (e pre path post : List Char) (he : e ∈ audioExtsL)
    (hpre : '[' ∉ pre) (hpost : '[' ∉ post) (hpath2 : ']' ∉ path) :
    scanAudio (tryMatchWith ']')
        ((pre ++ '[' :: '[' :: path ++ '.' :: e ++ ']' :: ']' :: post).length + 1)
        (pre ++ '[' :: '[' :: path ++ '.' :: e ++ ']' :: ']' :: post) 0 =
      [⟨path ++ '.' :: e, pre.length, pre.length + (path.length + e.length + 5)⟩] := by
  have hlen : ('[' :: '[' :: (path ++ '.' :: (e ++ [']', ']']))).length =
      path.length + e.length + 5 := by
    simp only [List.length_cons, List.length_append, List.length_nil]
    omega
  have hat : tryMatchWith ']'
      (('[' :: '[' :: (path ++ '.' :: (e ++ [']', ']']))) ++ post) =
      some (path ++ '.' :: e, ('[' :: '[' :: (path ++ '.' :: (e ++ [']', ']']))).length) := by
    rw [show ('[' :: '[' :: (path ++ '.' :: (e ++ [']', ']']))) ++ post =
        '[' :: '[' :: (path ++ '.' :: (e ++ ']' :: ']' :: post)) from by simp]
    rw [tryMatchWith, tryBranch1_at_wiki path e post he hpath2,
      tryBranch2WithL_at_ref path e post he hpath2, hlen]
  have hdoc : pre ++ '[' :: '[' :: path ++ '.' :: e ++ ']' :: ']' :: post =
      pre ++ (('[' :: '[' :: (path ++ '.' :: (e ++ [']', ']']))) ++ post) := by
    simp
  rw [hdoc, scan_single ']' pre _ post _ hpre hpost (by simp) hat, hlen]

/-- Claim C1: for every recognized extension and both syntaxes, a document
with a single well-formed reference — no stray `[` around it, a `]`-free
label, a `)`- and `]`-free path — produces exactly one match, capturing the
embedded path (extension included, brackets excluded), starting at the opening
bracket and ending immediately after the closing parenthesis resp. brackets. -/
theorem claim_C1_single_reference (e pre label path post : List Char) (he : e ∈ audioExtsL)
    (hpre : '[' ∉ pre) (hpost : '[' ∉ post) (hlabel : ']' ∉ label)
    (hpath1 : ')' ∉ path) (hpath2 : ']' ∉ path) :
    findAudioLinkMatchesL
        (pre ++ '[' :: label ++ ']' :: '(' :: path ++ '.' :: e ++ ')' :: post)
      = [⟨path ++ '.' :: e, pre.length,
          pre.length + (label.length + path.length + e.length + 5)⟩] ∧
    findAudioLinkMatchesL (pre ++ '[' :: '[' :: path ++ '.' :: e ++ ']' :: ']' :: post)
      = [⟨path ++ '.' :: e, pre.length, pre.length + (path.length + e.length + 5)⟩] := by
  constructor
  · rw [findAudioLinkMatchesL, show tryMatchL = tryMatchWith ']' from rfl]
    exact scan_md_doc ']' e pre label path post he hpre hpost hlabel hpath1
  · rw [findAudioLinkMatchesL, show tryMatchL = tryMatchWith ']' from rfl]
    exact scan_wiki_doc_L e pre path post he hpre hpost hpath2

/-- Witness for claim C1 at a concrete document for each syntax. -/
theorem claim_C1_single_reference_witness :
    findAudioLinkMatchesL (("x [L](a.mp3) y").data) = [⟨("a.mp3").data, 2, 12⟩] ∧
    findAudioLinkMatchesL (("x [[a.mp3]] y").data) = [⟨("a.mp3").data, 2, 11⟩] := by
  have h := claim_C1_single_reference (("mp3").data) (("x ").data) (("L").data) (("a").data)
    ((" y").data) (by decide) (by decide) (by decide) (by decide) (by decide) (by decide)
  constructor
  · rw [show ("x [L](a.mp3) y").data = ("x ").data ++ '[' :: ("L").data ++ ']' :: '(' ::
        ("a").data ++ '.' :: ("mp3").data ++ ')' :: ((" y").data) from by decide, h.1]
    decide
  · rw [show ("x [[a.mp3]] y").data = ("x ").data ++ '[' :: '[' :: ("a").data ++ '.' ::
        ("mp3").data ++ ']' :: ']' :: ((" y").data) from by decide, h.2]
    decide

/-- Claim C6: every match of the scanner has `startPos < endPos`, and the
match sequence is in left-to-right order with non-overlapping spans (each
match's `endPos` is at most the next match's `startPos`). -/
theorem claim_C6_spans_ordered (text : String) :
    (findAudioLinkMatches text).Forall (fun x => x.startPos < x.endPos) ∧
    List.Chain' (fun a b => a.endPos ≤ b.startPos) (findAudioLinkMatches text) := by
  have h := scan_inv (tryMatchWith ']') (fun l cap len hl => tryMatchWith_len_pos ']' hl)
    (text.data.length + 1) text.data 0
  constructor
  · rw [List.forall_iff_forall_mem]
    intro x hx
    exact (h.1 x hx).2
  · exact h.2

/-! ## The `src/main.ts` wiki-link alternative on a clean reference -/

theorem ciMatchLit_some_drop : ∀ {p l r : List Char}, ciMatchLit p l = some r →
    r = l.drop p.length := by
  intro p
  induction p with
  | nil =>
    intro l r h
    rw [ciMatchLit] at h
    injection h with h1
    rw [← h1]
    rfl
  | cons a ps ih =>
    intro l r h
    cases l with
    | nil => exact absurd h (by rw [ciMatchLit]; simp)
    | cons c cs =>
      rw [ciMatchLit] at h
      by_cases hlc : lowerChar a = lowerChar c
      · rw [if_pos hlc] at h
        simpa [List.drop_succ_cons] using ih h
      · rw [if_neg hlc] at h
        exact absurd h (by simp)

theorem tryAlts_some {alts : List (List Char)} {close l : List Char} {n : Nat}
    (h : tryAlts alts close l = some n) :
    ∃ e₀ ∈ alts, e₀.length = n ∧ ∃ r, ciMatchLit e₀ l = some r ∧ litStarts close r = true := by
  induction alts with
  | nil => exact absurd h (by rw [tryAlts]; simp)
  | cons a as ih =>
    rw [tryAlts] at h
    cases hci : ciMatchLit a l with
    | some r =>
      simp only [hci] at h
      by_cases hcl : litStarts close r = true
      · rw [if_pos hcl] at h
        injection h with h1
        exact ⟨a, List.mem_cons_self a as, h1, r, hci, hcl⟩
      · rw [if_neg hcl] at h
        obtain ⟨e₀, he₀, hl, r', hci', hcl'⟩ := ih h
        exact ⟨e₀, List.mem_cons_of_mem a he₀, hl, r', hci', hcl'⟩
    | none =>
      simp only [hci] at h
      obtain ⟨e₀, he₀, hl, r', hci', hcl'⟩ := ih h
      exact ⟨e₀, List.mem_cons_of_mem a he₀, hl, r', hci', hcl'⟩

theorem litStarts_rr_pos (u post : List Char) (m : Nat) (hu : ']' ∉ u) (hpost : ']' ∉ post)
    (h : litStarts ([']', ']']) ((u ++ ']' :: (']' :: post)).drop m) = true) : m = u.length := by
  obtain ⟨t, ht⟩ := litStarts_iff.mp h
  rcases Nat.lt_trichotomy m u.length with hlt | heq | hgt
  · exfalso
    obtain ⟨c, t', hct, hcm⟩ := drop_head_mem (b := ']' :: (']' :: post)) hlt
    rw [hct, show ([']', ']'] : List Char) ++ t = ']' :: ']' :: t from rfl] at ht
    injection ht with h1 h2
    rw [h1] at hcm
    exact hu hcm
  · exact heq
  · exfalso
    rcases Nat.lt_or_ge m (u.length + 2) with hm2 | hm2
    · have hm : m = u.length + 1 := by omega
      subst hm
      have hdrop : (u ++ ']' :: (']' :: post)).drop (u.length + 1) = ']' :: post := by
        rw [show u ++ ']' :: (']' :: post) = (u ++ [']']) ++ (']' :: post) from by simp,
          List.drop_left' (by simp)]
      rw [hdrop] at ht
      injection ht with h1 h2
      rw [h2] at hpost
      exact hpost (by simp)
    · obtain ⟨d, rfl⟩ : ∃ d, m = u.length + 2 + d := ⟨m - (u.length + 2), by omega⟩
      have hdrop : (u ++ ']' :: (']' :: post)).drop (u.length + 2 + d) = post.drop d := by
        rw [show u ++ ']' :: (']' :: post) = (u ++ [']', ']']) ++ post from by simp,
          show u.length + 2 + d = (u ++ [']', ']']).length + d from by
            simp only [List.length_append, List.length_cons, List.length_nil],
          drop_len_add]
      rw [hdrop] at ht
      have hmem : ']' ∈ post.drop d := by
        rw [ht]
        simp
      exact hpost ((List.drop_suffix _ _).subset hmem)

theorem tryBranch2WithM_at_ref (path e post : List Char) (he : e ∈ audioExtsL)
    (hpath2 : ']' ∉ path) (hpath3 : '[' ∉ path)
    (hpost1 : '[' ∉ post) (hpost2 : ']' ∉ post) :
    tryBranch2With '[' ('[' :: '[' :: (path ++ '.' :: (e ++ ']' :: ']' :: post))) =
      some (path ++ '.' :: e, path.length + e.length + 5) := by
  have hnospec := audioExts_no_special e he
  have he6 := he
  rw [audioExtsL_eq] at he6
  simp only [List.mem_cons, List.not_mem_nil, or_false] at he6
  rw [tryBranch2With, if_pos ⟨rfl, rfl⟩]
  have hnolb : '[' ∉ (path ++ '.' :: (e ++ ']' :: ']' :: post)) := by
    intro hm
    rcases List.mem_append.mp hm with hm1 | hm2
    · exact hpath3 hm1
    · rcases List.mem_cons.mp hm2 with hm3 | hm4
      · exact absurd hm3.symm (by decide)
      · rcases List.mem_append.mp hm4 with hm5 | hm6
        · exact hnospec.2.2.1 hm5
        · rcases List.mem_cons.mp hm6 with hm7 | hm8
          · exact absurd hm7.symm (by decide)
          · rcases List.mem_cons.mp hm8 with hm9 | hm10
            · exact absurd hm9.symm (by decide)
            · exact hpost1 hm10
  rw [show contentMatch '[' ([']', ']']) (path ++ '.' :: (e ++ ']' :: ']' :: post)) =
      plusAltsDescend audioExtsL ([']', ']']) (path ++ '.' :: (e ++ ']' :: ']' :: post))
        (runUntil '[' (path ++ '.' :: (e ++ ']' :: ']' :: post))).length from rfl]
  rw [runUntil_all '[' _ hnolb]
  have hdropP : (path ++ '.' :: (e ++ ']' :: ']' :: post)).drop (path.length + 1) =
      e ++ ']' :: ']' :: post := by
    rw [show path ++ '.' :: (e ++ ']' :: ']' :: post) =
        (path ++ ['.']) ++ (e ++ ']' :: ']' :: post) from by simp,
      List.drop_left' (by simp)]
  have htry : tryAlts audioExtsL ([']', ']'])
      ((path ++ '.' :: (e ++ ']' :: ']' :: post)).drop (path.length + 1)) =
        some e.length := by
    rw [hdropP, audioExtsL_eq]
    rcases he6 with rfl | rfl | rfl | rfl | rfl | rfl <;>
      simp +decide [tryAlts, ciMatchLit, litStarts]
  have hfail : ∀ j, path.length + 1 < j →
      j ≤ (path ++ '.' :: (e ++ ']' :: ']' :: post)).length →
      tryAlts audioExtsL ([']', ']'])
        ((path ++ '.' :: (e ++ ']' :: ']' :: post)).drop j) = none := by
    intro j hj1 hj2
    cases hta : tryAlts audioExtsL ([']', ']'])
        ((path ++ '.' :: (e ++ ']' :: ']' :: post)).drop j) with
    | none => rfl
    | some n =>
      exfalso
      obtain ⟨e₀, he₀, hlen₀, r, hci, hcl⟩ := tryAlts_some hta
      rw [ciMatchLit_some_drop hci, List.drop_drop] at hcl
      have hupos : ']' ∉ (path ++ '.' :: e) := by
        intro hm
        rcases List.mem_append.mp hm with hm1 | hm2
        · exact hpath2 hm1
        · rcases List.mem_cons.mp hm2 with hm3 | hm4
          · exact absurd hm3.symm (by decide)
          · exact hnospec.2.1 hm4
      have hm := litStarts_rr_pos (path ++ '.' :: e) post (j + e₀.length) hupos hpost2 (by
        rw [show (path ++ '.' :: e) ++ ']' :: (']' :: post) =
            path ++ '.' :: (e ++ ']' :: ']' :: post) from by simp]
        exact hcl)
    -- hm : j + e₀.length = (path ++ '.' :: e).length
      rw [show (path ++ '.' :: e).length = path.length + 1 + e.length from by
        simp only [List.length_append, List.length_cons]
        omega] at hm
      have hl₀ := audioExts_len e₀ he₀
      have hle := audioExts_len e he
      have he4 : e.length = 4 := by omega
      have he03 : e₀.length = 3 := by omega
      have hj3 : j = path.length + 2 := by omega
      have heflac := audioExts_len4 e he he4
      subst heflac
      subst hj3
      have hdrop2 : (path ++ '.' :: (('f' :: 'l' :: 'a' :: 'c' :: []) ++ ']' :: ']' :: post)).drop
          (path.length + 2) = 'l' :: 'a' :: 'c' :: ']' :: ']' :: post := by
        rw [show path ++ '.' :: (('f' :: 'l' :: 'a' :: 'c' :: []) ++ ']' :: ']' :: post) =
            (path ++ ['.', 'f']) ++ ('l' :: 'a' :: 'c' :: ']' :: ']' :: post) from by simp,
          List.drop_left' (by simp)]
      rw [hdrop2] at hci
      rw [audioExtsL_eq] at he₀
      simp only [List.mem_cons, List.not_mem_nil, or_false] at he₀
      rcases he₀ with rfl | rfl | rfl | rfl | rfl | rfl <;>
        simp +decide [ciMatchLit] at hci
  have hstart : path.length + 1 ≤ (path ++ '.' :: (e ++ ']' :: ']' :: post)).length := by
    simp only [List.length_append, List.length_cons]
    omega
  rw [descend_eq_some audioExtsL ([']', ']']) _ (path.length + 1) e.length (by omega) htry
    _ hstart hfail]
  have htake : (path ++ '.' :: (e ++ ']' :: ']' :: post)).take (path.length + 1 + e.length) =
      path ++ '.' :: e := by
    rw [show path ++ '.' :: (e ++ ']' :: ']' :: post) =
        (path ++ '.' :: e) ++ ']' :: ']' :: post from by simp]
    exact List.take_left' (by simp <;> omega)
  simp only [htake, Option.some.injEq, Prod.mk.injEq, eq_self_iff_true, true_and]
  omega

theorem scan_wiki_doc_M (e pre path post : List Char) (he : e ∈ audioExtsL)
    (hpre : '[' ∉ pre) (hpost1 : '[' ∉ post) (hpost2 : ']' ∉ post)
    (hpath2 : ']' ∉ path) (hpath3 : '[' ∉ path) :
    scanAudio (tryMatchWith '[')
        ((pre ++ '[' :: '[' :: path ++ '.' :: e ++ ']' :: ']' :: post).length + 1)
        (pre ++ '[' :: '[' :: path ++ '.' :: e ++ ']' :: ']' :: post) 0 =
      [⟨path ++ '.' :: e, pre.length, pre.length + (path.length + e.length + 5)⟩] := by
  have hlen : ('[' :: '[' :: (path ++ '.' :: (e ++ [']', ']']))).length =
      path.length + e.length + 5 := by
    simp only [List.length_cons, List.length_append, List.length_nil]
    omega
  have hat : tryMatchWith '['
      (('[' :: '[' :: (path ++ '.' :: (e ++ [']', ']']))) ++ post) =
      some (path ++ '.' :: e, ('[' :: '[' :: (path ++ '.' :: (e ++ [']', ']']))).length) := by
    rw [show ('[' :: '[' :: (path ++ '.' :: (e ++ [']', ']']))) ++ post =
        '[' :: '[' :: (path ++ '.' :: (e ++ ']' :: ']' :: post)) from by simp]
    rw [tryMatchWith, tryBranch1_at_wiki path e post he hpath2,
      tryBranch2WithM_at_ref path e post he hpath2 hpath3 hpost1 hpost2, hlen]
  have hdoc : pre ++ '[' :: '[' :: path ++ '.' :: e ++ ']' :: ']' :: post =
      pre ++ (('[' :: '[' :: (path ++ '.' :: (e ++ [']', ']']))) ++ post) := by
    simp
  rw [hdoc, scan_single '[' pre _ post _ hpre hpost1 (by simp) hat, hlen]

/-- Claim C10 (amended): the two scanner implementations agree on every
document consisting of a single well-formed reference with no stray square
bracket around or inside it — the Markdown syntax scan is the same code in
both, and the wiki-link syntax produces the same single match as long as
target, preamble and trailer are free of `[` and `]`.  (On wiki links whose
inner text contains `]` or `[`, or with a later `]]` in the document, the two
differ — see the counterexample.) -/
theorem claim_C10_scanners_agree_amended (e pre label path post : List Char)
    (he : e ∈ audioExtsL) (hpre : '[' ∉ pre) (hpost1 : '[' ∉ post) (hpost2 : ']' ∉ post)
    (hlabel : ']' ∉ label) (hpath1 : ')' ∉ path) (hpath2 : ']' ∉ path) (hpath3 : '[' ∉ path) :
    ((findAudioLinksL
        (pre ++ '[' :: label ++ ']' :: '(' :: path ++ '.' :: e ++ ')' :: post)).map
          (fun a => (a.filePath, a.startPos, a.endPos)) =
      (findAudioLinkMatchesL
        (pre ++ '[' :: label ++ ']' :: '(' :: path ++ '.' :: e ++ ')' :: post)).map
          (fun m => (m.linkText, m.startPos, m.endPos))) ∧
    ((findAudioLinksL (pre ++ '[' :: '[' :: path ++ '.' :: e ++ ']' :: ']' :: post)).map
        (fun a => (a.filePath, a.startPos, a.endPos)) =
      (findAudioLinkMatchesL (pre ++ '[' :: '[' :: path ++ '.' :: e ++ ']' :: ']' :: post)).map
        (fun m => (m.linkText, m.startPos, m.endPos))) := by
  constructor
  · rw [findAudioLinksL, findAudioLinkMatchesL, show tryMatchM = tryMatchWith '[' from rfl,
      show tryMatchL = tryMatchWith ']' from rfl,
      scan_md_doc '[' e pre label path post he hpre hpost1 hlabel hpath1,
      scan_md_doc ']' e pre label path post he hpre hpost1 hlabel hpath1]
    simp
  · rw [findAudioLinksL, findAudioLinkMatchesL, show tryMatchM = tryMatchWith '[' from rfl,
      show tryMatchL = tryMatchWith ']' from rfl,
      scan_wiki_doc_M e pre path post he hpre hpost1 hpost2 hpath2 hpath3,
      scan_wiki_doc_L e pre path post he hpre hpost1 hpath2]
    simp

/-- Witness for the amended claim C10 at a concrete document per syntax. -/
theorem claim_C10_scanners_agree_amended_witness :
    ((findAudioLinksL (("x [L](a.mp3) y").data)).map
        (fun a => (a.filePath, a.startPos, a.endPos)) =
      (findAudioLinkMatchesL (("x [L](a.mp3) y").data)).map
        (fun m => (m.linkText, m.startPos, m.endPos))) ∧
    ((findAudioLinksL (("x [[a.mp3]] y").data)).map
        (fun a => (a.filePath, a.startPos, a.endPos)) =
      (findAudioLinkMatchesL (("x [[a.mp3]] y").data)).map
        (fun m => (m.linkText, m.startPos, m.endPos))) := by
  have h := claim_C10_scanners_agree_amended (("mp3").data) (("x ").data) (("L").data)
    (("a").data) ((" y").data) (by decide) (by decide) (by decide) (by decide) (by decide)
    (by decide) (by decide) (by decide)
  constructor
  · rw [show ("x [L](a.mp3) y").data = ("x ").data ++ '[' :: ("L").data ++ ']' :: '(' ::
        ("a").data ++ '.' :: ("mp3").data ++ ')' :: ((" y").data) from by decide]
    exact h.1
  · rw [show ("x [[a.mp3]] y").data = ("x ").data ++ '[' :: '[' :: ("a").data ++ '.' ::
        ("mp3").data ++ ']' :: ']' :: ((" y").data) from by decide]
    exact h.2

end LocalWhisper
